import Mathlib

/-!
Verification of the Terrain Lighting Eliminator tool
(`terrain_lighting_eliminator.py`).

The development shallowly embeds the program's operations:

* `fix_course_file` — the record patcher for one `courseN.bin` slot
  (bytes are modelled as `List Nat`, big-endian multi-byte reads as
  `readBE`, and a `struct.error` from an out-of-range
  `unpack_from`/`pack_into` as the `none` result);
* `classify` / `scan_file` — format sniffing and the per-file pipeline,
  parametric in the external container and compression codecs
  (`nsmbpy2.u8` and `lz77`), with `Except Unit` modelling a raised
  exception and the `written` field modelling the final `write_bytes`;
* `does_path_look_like_level` / `scan_folder` / `scan_file_safe` /
  `main_run` — the pathlib suffix filter, the sorted directory walk,
  the per-file exception wrapper, and the top-level dispatch.
-/

set_option maxRecDepth 100000

namespace TLE

/-- Big-endian read of `n` bytes of `data` starting at `off`
(the value computed by `struct.unpack_from` for an in-range access;
callers check the range separately, as `struct` raises on overrun). -/
def readBE (data : List Nat) (off : Nat) : Nat → Nat
  | 0 => 0
  | n + 1 => readBE data off n * 256 + data.getD (off + n) 0

/-- Writing the 2-byte big-endian value 0 at `off`
(`struct.pack_into('>H', data, off, 0)`). -/
def zero2 (data : List Nat) (off : Nat) : List Nat :=
  (data.set off 0).set (off + 1) 0

/-- Byte offset of the terrain-lighting flag of record `i`:
`off = zones_off + i * 24 + 10`. -/
def fOff (zonesOff i : Nat) : Nat := zonesOff + i * 24 + 10

/-- The `for i in range(zones_size // 24)` loop body of
`fix_course_file`, iterated over the index list `L`: read the 2-byte
big-endian flag at `fOff zonesOff i`; if nonzero, zero it in place and
count a fix.  `none` models a `struct.error` from an out-of-range
access. -/
def fixRecords (zonesOff : Nat) : List Nat → Nat → List Nat → Option (List Nat × Nat)
  | data, numFixes, [] => some (data, numFixes)
  | data, numFixes, i :: rest =>
    let off := fOff zonesOff i
    if off + 2 ≤ data.length then
      if readBE data off 2 ≠ 0 then
        fixRecords zonesOff (zero2 data off) (numFixes + 1) rest
      else
        fixRecords zonesOff data numFixes rest
    else
      none

/-- `fix_course_file(data)`: unpack the 4-byte big-endian
`zones_off`/`zones_size` pair at 0x48 (raising, i.e. `none`, when the
buffer is shorter than 0x50 bytes), then run the record loop.  On
success, returns the patched bytes and the fix count. -/
def fix_course_file (data : List Nat) : Option (List Nat × Nat) :=
  if 0x48 + 8 ≤ data.length then
    fixRecords (readBE data 0x48 4) data 0 (List.range (readBE data 0x4C 4 / 24))
  else
    none

/-- The number of records of `d` whose (pre-patch) flag is nonzero. -/
def nonzeroFlagCount (d : List Nat) : Nat :=
  (List.range (readBE d 0x4C 4 / 24)).countP
    (fun i => decide (readBE d (fOff (readBE d 0x48 4) i) 2 ≠ 0))

theorem zero2_length (data : List Nat) (off : Nat) :
    (zero2 data off).length = data.length := by
  simp [zero2]

theorem getElem?_zero2_ne (data : List Nat) (off j : Nat)
    (h1 : j ≠ off) (h2 : j ≠ off + 1) : (zero2 data off)[j]? = data[j]? := by
  unfold zero2
  rw [List.getElem?_set_ne (fun h => h2 h.symm), List.getElem?_set_ne (fun h => h1 h.symm)]

theorem readBE_two (data : List Nat) (off : Nat) :
    readBE data off 2 = data.getD off 0 * 256 + data.getD (off + 1) 0 := by
  simp [readBE]

theorem readBE_congr (l l' : List Nat) (off n : Nat)
    (h : ∀ k, k < n → l[off + k]? = l'[off + k]?) :
    readBE l off n = readBE l' off n := by
  induction n with
  | zero => rfl
  | succ n ih =>
    rw [readBE, readBE, ih (fun k hk => h k (Nat.lt_succ.mpr hk.le)),
      List.getD_eq_getElem?_getD, List.getD_eq_getElem?_getD, h n (Nat.lt_succ_self n)]

theorem getD_zero2_self (data : List Nat) (off : Nat) :
    (zero2 data off).getD off 0 = 0 ∧ (zero2 data off).getD (off + 1) 0 = 0 := by
  unfold zero2
  constructor <;>
  · rw [List.getD_eq_getElem?_getD]
    simp only [List.getElem?_set, List.length_set]
    split_ifs <;> simp_all

theorem readBE_zero2_self (data : List Nat) (off : Nat) :
    readBE (zero2 data off) off 2 = 0 := by
  rw [readBE_two, (getD_zero2_self data off).1, (getD_zero2_self data off).2]

/-- Flag fields of distinct record indices never overlap (the stride is
24 bytes and a field is 2 bytes). -/
theorem fields_disjoint {zonesOff i j : Nat} (h : i ≠ j) :
    fOff zonesOff i ≠ fOff zonesOff j ∧ fOff zonesOff i ≠ fOff zonesOff j + 1 ∧
    fOff zonesOff i + 1 ≠ fOff zonesOff j ∧ fOff zonesOff i + 1 ≠ fOff zonesOff j + 1 := by
  unfold fOff
  omega

theorem readBE_zero2_of_ne {zonesOff i j : Nat} (data : List Nat) (h : i ≠ j) :
    readBE (zero2 data (fOff zonesOff i)) (fOff zonesOff j) 2
      = readBE data (fOff zonesOff j) 2 := by
  refine readBE_congr _ _ _ _ (fun k hk => ?_)
  apply getElem?_zero2_ne
  · unfold fOff at *
    omega
  · unfold fOff at *
    omega

/-- Core correctness of the record-patching loop: over a duplicate-free
index list whose flag fields all fit in the buffer, the loop succeeds;
the fix count grows by the number of indices whose flag is nonzero; the
buffer keeps its length; bytes outside the flag fields of nonzero-flag
records are untouched; and every processed flag field reads 0 at the
end. -/
theorem fixRecords_sound (zonesOff : Nat) (L : List Nat) :
    ∀ (data : List Nat) (acc : Nat), L.Nodup →
    (∀ i ∈ L, fOff zonesOff i + 2 ≤ data.length) →
    ∃ r, fixRecords zonesOff data acc L
        = some (r, acc + L.countP (fun i => decide (readBE data (fOff zonesOff i) 2 ≠ 0)))
      ∧ r.length = data.length
      ∧ (∀ j : Nat,
          (∀ i ∈ L, readBE data (fOff zonesOff i) 2 ≠ 0 →
            j ≠ fOff zonesOff i ∧ j ≠ fOff zonesOff i + 1) →
          r[j]? = data[j]?)
      ∧ (∀ i ∈ L, readBE r (fOff zonesOff i) 2 = 0) := by
  induction L with
  | nil =>
    intro data acc _ _
    exact ⟨data, by simp [fixRecords], rfl, fun _ _ => rfl, by simp⟩
  | cons i rest ih =>
    intro data acc hnd hb
    obtain ⟨hi_not_mem, hnd_rest⟩ := List.nodup_cons.mp hnd
    have hbi : fOff zonesOff i + 2 ≤ data.length := hb i (List.mem_cons_self i rest)
    by_cases hflag : readBE data (fOff zonesOff i) 2 ≠ 0
    · -- nonzero flag: the loop zeroes it
      have hne : ∀ j ∈ rest, i ≠ j := fun j hj hij => hi_not_mem (hij ▸ hj)
      have hread' : ∀ j ∈ rest,
          readBE (zero2 data (fOff zonesOff i)) (fOff zonesOff j) 2
            = readBE data (fOff zonesOff j) 2 :=
        fun j hj => readBE_zero2_of_ne data (hne j hj)
      obtain ⟨r, hr_eq, hr_len, hr_frame, hr_zero⟩ :=
        ih (zero2 data (fOff zonesOff i)) (acc + 1) hnd_rest
          (fun k hk => by rw [zero2_length]; exact hb k (List.mem_cons_of_mem i hk))
      refine ⟨r, ?_, ?_, ?_, ?_⟩
      · rw [fixRecords]
        simp only [if_pos hbi, if_pos hflag]
        rw [hr_eq, List.countP_cons,
          List.countP_congr (fun x hx =>
            by rw [hread' x hx])]
        simp only [decide_eq_true_eq]
        rw [if_pos hflag]
        simp only [Option.some.injEq, Prod.mk.injEq]
        exact ⟨trivial, by omega⟩
      · rw [hr_len, zero2_length]
      · intro j hj
        have hji := hj i (List.mem_cons_self i rest) hflag
        rw [hr_frame j (fun k hk hfk =>
          hj k (List.mem_cons_of_mem i hk) (by rwa [hread' k hk] at hfk))]
        exact getElem?_zero2_ne data _ j hji.1 hji.2
      · intro k hk
        rcases List.mem_cons.mp hk with rfl | hk'
        · have hcongr : readBE r (fOff zonesOff k) 2
              = readBE (zero2 data (fOff zonesOff k)) (fOff zonesOff k) 2 := by
            refine readBE_congr _ _ _ _ (fun t ht => ?_)
            refine hr_frame (fOff zonesOff k + t) (fun m hm _ => ?_)
            have := hne m hm
            unfold fOff at *
            omega
          rw [hcongr, readBE_zero2_self]
        · exact hr_zero k hk'
    · -- zero flag: the record is skipped
      obtain ⟨r, hr_eq, hr_len, hr_frame, hr_zero⟩ :=
        ih data acc hnd_rest (fun k hk => hb k (List.mem_cons_of_mem i hk))
      refine ⟨r, ?_, hr_len, ?_, ?_⟩
      · rw [fixRecords]
        simp only [if_pos hbi, if_neg hflag]
        rw [hr_eq, List.countP_cons]
        simp only [decide_eq_true_eq]
        rw [if_neg hflag]
        simp only [Option.some.injEq, Prod.mk.injEq]
        exact ⟨trivial, by omega⟩
      · intro j hj
        exact hr_frame j (fun k hk => hj k (List.mem_cons_of_mem i hk))
      · intro k hk
        rcases List.mem_cons.mp hk with rfl | hk'
        · have hcongr : readBE r (fOff zonesOff k) 2 = readBE data (fOff zonesOff k) 2 := by
            refine readBE_congr _ _ _ _ (fun t ht => ?_)
            refine hr_frame (fOff zonesOff k + t) (fun m hm _ => ?_)
            have : k ≠ m := fun hkm => hi_not_mem (hkm ▸ hm)
            unfold fOff at *
            omega
          rw [hcongr]
          exact of_not_not (fun h => hflag h)
        · exact hr_zero k hk'

/-- The loop raises exactly when some processed record's flag field
overruns the buffer. -/
theorem fixRecords_isNone (zonesOff : Nat) (L : List Nat) :
    ∀ (data : List Nat) (acc : Nat),
    (fixRecords zonesOff data acc L = none ↔ ∃ i ∈ L, data.length < fOff zonesOff i + 2) := by
  induction L with
  | nil => intro data acc; simp [fixRecords]
  | cons i rest ih =>
    intro data acc
    by_cases hbi : fOff zonesOff i + 2 ≤ data.length
    · by_cases hflag : readBE data (fOff zonesOff i) 2 ≠ 0
      · rw [fixRecords]
        simp only [if_pos hbi, if_pos hflag]
        rw [ih (zero2 data (fOff zonesOff i)) (acc + 1)]
        simp only [zero2_length, List.mem_cons]
        constructor
        · rintro ⟨k, hk, h⟩
          exact ⟨k, Or.inr hk, h⟩
        · rintro ⟨k, rfl | hk, h⟩
          · omega
          · exact ⟨k, hk, h⟩
      · rw [fixRecords]
        simp only [if_pos hbi, if_neg hflag]
        rw [ih data acc]
        simp only [List.mem_cons]
        constructor
        · rintro ⟨k, hk, h⟩
          exact ⟨k, Or.inr hk, h⟩
        · rintro ⟨k, rfl | hk, h⟩
          · omega
          · exact ⟨k, hk, h⟩
    · rw [fixRecords]
      simp only [if_neg hbi]
      constructor
      · intro _
        exact ⟨i, List.mem_cons_self i rest, by omega⟩
      · intro _
        trivial

/-- If every processed flag already reads 0 and all fields are in
range, the loop is the identity with fix count unchanged. -/
theorem fixRecords_allzero (zonesOff : Nat) (L : List Nat) :
    ∀ (data : List Nat) (acc : Nat),
    (∀ i ∈ L, fOff zonesOff i + 2 ≤ data.length) →
    (∀ i ∈ L, readBE data (fOff zonesOff i) 2 = 0) →
    fixRecords zonesOff data acc L = some (data, acc) := by
  induction L with
  | nil => intro data acc _ _; rfl
  | cons i rest ih =>
    intro data acc hb hz
    rw [fixRecords]
    simp only [if_pos (hb i (List.mem_cons_self i rest))]
    rw [if_neg (by simpa using hz i (List.mem_cons_self i rest))]
    exact ih data acc (fun k hk => hb k (List.mem_cons_of_mem i hk))
      (fun k hk => hz k (List.mem_cons_of_mem i hk))

/-- Success characterization of `fix_course_file`: on success the
buffer was at least 0x50 bytes, the fix count is the number of
nonzero-flag records, the length is preserved, bytes outside the
nonzero-flag fields are untouched, and every record's flag field now
reads 0. -/
theorem fix_course_file_spec (data r : List Nat) (n : Nat)
    (h : fix_course_file data = some (r, n)) :
    0x50 ≤ data.length
    ∧ n = nonzeroFlagCount data
    ∧ r.length = data.length
    ∧ (∀ j : Nat,
        (∀ i < readBE data 0x4C 4 / 24,
          readBE data (fOff (readBE data 0x48 4) i) 2 ≠ 0 →
          j ≠ fOff (readBE data 0x48 4) i ∧ j ≠ fOff (readBE data 0x48 4) i + 1) →
        r[j]? = data[j]?)
    ∧ (∀ i < readBE data 0x4C 4 / 24, readBE r (fOff (readBE data 0x48 4) i) 2 = 0) := by
  unfold fix_course_file at h
  by_cases hlen : 0x48 + 8 ≤ data.length
  · rw [if_pos hlen] at h
    have hbounds : ∀ i ∈ List.range (readBE data 0x4C 4 / 24),
        fOff (readBE data 0x48 4) i + 2 ≤ data.length := by
      intro i hi
      by_contra hcon
      have : fixRecords (readBE data 0x48 4) data 0 (List.range (readBE data 0x4C 4 / 24))
          = none :=
        (fixRecords_isNone _ _ data 0).mpr ⟨i, hi, by omega⟩
      rw [this] at h
      exact Option.noConfusion h
    obtain ⟨r', hr_eq, hr_len, hr_frame, hr_zero⟩ :=
      fixRecords_sound (readBE data 0x48 4) (List.range (readBE data 0x4C 4 / 24)) data 0
        (List.nodup_range _) hbounds
    rw [hr_eq] at h
    obtain ⟨rfl, rfl⟩ : r' = r ∧
        List.countP (fun i =>
          decide (readBE data (fOff (readBE data 0x48 4) i) 2 ≠ 0))
          (List.range (readBE data 0x4C 4 / 24)) = n := by
      have := Option.some.inj h
      exact ⟨(Prod.mk.injEq _ _ _ _ ▸ this).1, by
        have h2 := (Prod.mk.injEq _ _ _ _ ▸ this).2
        omega⟩
    refine ⟨by omega, by rw [nonzeroFlagCount], hr_len, ?_, ?_⟩
    · intro j hj
      exact hr_frame j (fun i hi => hj i (List.mem_range.mp hi))
    · intro i hi
      exact hr_zero i (List.mem_range.mpr hi)
  · rw [if_neg hlen] at h
    exact Option.noConfusion h

/-- A 0x50-byte slot whose header declares `zones_off = 0x100`
(pointing outside the buffer) and `zones_size = 25` (one 24-byte
record plus one remainder byte). -/
def c1data : List Nat := ((List.replicate 80 0).set 0x4A 1).set 0x4F 25

/-- A well-formed 128-byte slot: record array at 0x50 of byte length 48
(two records); record 0 has flag `0x0001`, record 1 has flag `0x0000`. -/
def demoSlot : List Nat :=
  (((List.replicate 128 0).set 0x4B 0x50).set 0x4F 48).set 91 1

/-- `demoSlot` after patching: the single nonzero flag zeroed. -/
def demoSlotOut : List Nat :=
  ((((List.replicate 128 0).set 0x4B 0x50).set 0x4F 48).set 90 0).set 91 0

/-- An 80-byte slot whose header declares `zones_off = 0x40`, so that
record 0's flag field (at 0x4A–0x4B) overlaps the header's own offset
field; bytes 10–11 hold `0xABCD`. -/
def c4data : List Nat :=
  ((((List.replicate 80 0).set 0x4B 0x40).set 0x4F 24).set 10 0xAB).set 11 0xCD

/-- `c4data` after the first patch: the overlapping flag (value
`0x0040`) was zeroed, which also zeroed the low byte of the header's
offset field. -/
def c4out1 : List Nat :=
  (((List.replicate 80 0).set 0x4F 24).set 10 0xAB).set 11 0xCD

/-- `c4out1` after a second patch: the header now reads
`zones_off = 0`, so bytes 10–11 get zeroed as a "record 0 flag". -/
def c4out2 : List Nat := (List.replicate 80 0).set 0x4F 24

/-- C1 (counterexample): the claim quantifies over every slot of length
at least 0x50 and asserts the patch processes all `length / 24` records
without erroring.  `c1data` has length exactly 0x50 and a record count
of 1 (its declared byte length, 25, is not a multiple of 24), yet the
patch raises (`none`) because the header-declared offset places the
record's flag field outside the buffer. -/
theorem c1_counterexample :
    c1data.length = 0x50 ∧ readBE c1data 0x4C 4 / 24 = 1 ∧
    readBE c1data 0x4C 4 % 24 ≠ 0 ∧ fix_course_file c1data = none := by
  decide

/-- C1 (amended): for every slot of length at least 0x50 **whose
header-declared record flag fields all lie within the buffer**, the
patch succeeds, processes exactly `zones_size / 24` records, zeroes a
record's 2-byte big-endian flag at `zones_off + i*24 + 10` exactly when
it is nonzero, and returns as fix count the number of records whose
pre-patch flag was nonzero. -/
theorem c1_patch_of_inbounds (data : List Nat)
    (hlen : 0x50 ≤ data.length)
    (hb : ∀ i < readBE data 0x4C 4 / 24, fOff (readBE data 0x48 4) i + 2 ≤ data.length) :
    ∃ r, fix_course_file data = some (r, nonzeroFlagCount data)
      ∧ (∀ i < readBE data 0x4C 4 / 24,
          readBE r (fOff (readBE data 0x48 4) i) 2 = 0)
      ∧ (∀ i < readBE data 0x4C 4 / 24,
          readBE data (fOff (readBE data 0x48 4) i) 2 = 0 →
            r[fOff (readBE data 0x48 4) i]? = data[fOff (readBE data 0x48 4) i]? ∧
            r[fOff (readBE data 0x48 4) i + 1]? = data[fOff (readBE data 0x48 4) i + 1]?) := by
  obtain ⟨r, hr_eq, _, hr_frame, hr_zero⟩ :=
    fixRecords_sound (readBE data 0x48 4) (List.range (readBE data 0x4C 4 / 24)) data 0
      (List.nodup_range _) (fun i hi => hb i (List.mem_range.mp hi))
  refine ⟨r, ?_, ?_, ?_⟩
  · rw [fix_course_file, if_pos (by omega), hr_eq, nonzeroFlagCount]
    simp
  · intro i hi
    exact hr_zero i (List.mem_range.mpr hi)
  · intro i hi hzero
    constructor <;>
    · refine hr_frame _ (fun k hk hfk => ?_)
      have : i ≠ k := fun hik => hfk (hik ▸ hzero)
      unfold fOff at *
      omega

/-- Witness for `c1_patch_of_inbounds` at the concrete slot
`demoSlot`. -/
theorem c1_patch_of_inbounds_witness :
    (0x50 ≤ demoSlot.length ∧
      (∀ i < readBE demoSlot 0x4C 4 / 24,
        fOff (readBE demoSlot 0x48 4) i + 2 ≤ demoSlot.length)) ∧
    (∃ r, fix_course_file demoSlot = some (r, nonzeroFlagCount demoSlot)
      ∧ (∀ i < readBE demoSlot 0x4C 4 / 24,
          readBE r (fOff (readBE demoSlot 0x48 4) i) 2 = 0)
      ∧ (∀ i < readBE demoSlot 0x4C 4 / 24,
          readBE demoSlot (fOff (readBE demoSlot 0x48 4) i) 2 = 0 →
            r[fOff (readBE demoSlot 0x48 4) i]? = demoSlot[fOff (readBE demoSlot 0x48 4) i]? ∧
            r[fOff (readBE demoSlot 0x48 4) i + 1]?
              = demoSlot[fOff (readBE demoSlot 0x48 4) i + 1]?)) :=
  ⟨⟨by decide, by decide⟩, c1_patch_of_inbounds demoSlot (by decide) (by decide)⟩

/-- C2 (confirmed): whenever the patch succeeds, the output has the
same length as the input, differs from it at most at the 2-byte flag
fields of records whose pre-patch flag was nonzero, and every record's
flag field reads `0x0000` afterwards.  (The input itself is never
mutated: `fix_course_file` first copies its argument into a fresh
`bytearray`, which the embedding reflects by being a pure function of
the input.) -/
theorem c2_patch_frame (data r : List Nat) (n : Nat)
    (h : fix_course_file data = some (r, n)) :
    r.length = data.length
    ∧ (∀ j : Nat,
        (∀ i < readBE data 0x4C 4 / 24,
          readBE data (fOff (readBE data 0x48 4) i) 2 ≠ 0 →
          j ≠ fOff (readBE data 0x48 4) i ∧ j ≠ fOff (readBE data 0x48 4) i + 1) →
        r[j]? = data[j]?)
    ∧ (∀ i < readBE data 0x4C 4 / 24, readBE r (fOff (readBE data 0x48 4) i) 2 = 0) :=
  ⟨(fix_course_file_spec data r n h).2.2.1,
   (fix_course_file_spec data r n h).2.2.2.1,
   (fix_course_file_spec data r n h).2.2.2.2⟩

/-- Witness for `c2_patch_frame` at the concrete slot `demoSlot`. -/
theorem c2_patch_frame_witness :
    fix_course_file demoSlot = some (demoSlotOut, 1) ∧
    (demoSlotOut.length = demoSlot.length
    ∧ (∀ j : Nat,
        (∀ i < readBE demoSlot 0x4C 4 / 24,
          readBE demoSlot (fOff (readBE demoSlot 0x48 4) i) 2 ≠ 0 →
          j ≠ fOff (readBE demoSlot 0x48 4) i ∧ j ≠ fOff (readBE demoSlot 0x48 4) i + 1) →
        demoSlotOut[j]? = demoSlot[j]?)
    ∧ (∀ i < readBE demoSlot 0x4C 4 / 24,
        readBE demoSlotOut (fOff (readBE demoSlot 0x48 4) i) 2 = 0)) :=
  ⟨by decide, c2_patch_frame demoSlot demoSlotOut 1 (by decide)⟩

/-- C4 (counterexample): patching is *not* idempotent in general.  In
`c4data` the single record's flag field overlaps the header's own
offset field; the first patch zeroes it (changing the header), and the
second patch — instead of finding zero nonzero flags — reads a
different record array, fixes one more record, and changes the bytes
again. -/
theorem c4_counterexample :
    fix_course_file c4data = some (c4out1, 1)
    ∧ fix_course_file c4out1 = some (c4out2, 1)
    ∧ c4out2 ≠ c4out1 := by
  decide

/-- C4 (amended): patching *is* idempotent for every slot whose record
flag fields do not overlap the 8 header bytes at 0x48–0x4F: if the
first patch returns `(r, n)`, patching `r` succeeds with fix count 0
and returns `r` itself unchanged — so a second pipeline run finds zero
nonzero flags and performs no write. -/
theorem c4_idempotent_of_disjoint (data r : List Nat) (n : Nat)
    (h : fix_course_file data = some (r, n))
    (hd : ∀ i < readBE data 0x4C 4 / 24,
      fOff (readBE data 0x48 4) i + 2 ≤ 0x48 ∨ 0x50 ≤ fOff (readBE data 0x48 4) i) :
    fix_course_file r = some (r, 0) := by
  obtain ⟨hlen, _, hrlen, hframe, hzero⟩ := fix_course_file_spec data r n h
  have hhdr : ∀ k, k < 8 → r[0x48 + k]? = data[0x48 + k]? := by
    intro k hk
    refine hframe (0x48 + k) (fun i hi _ => ?_)
    have := hd i hi
    omega
  have hoff : readBE r 0x48 4 = readBE data 0x48 4 :=
    readBE_congr _ _ _ _ (fun k hk => hhdr k (by omega))
  have hsize : readBE r 0x4C 4 = readBE data 0x4C 4 :=
    readBE_congr _ _ _ _ (fun k hk => hhdr (4 + k) (by omega) |>.trans (by rw [show 0x48 + (4 + k) = 0x4C + k by omega]) |>.symm.trans (by rw [show 0x48 + (4 + k) = 0x4C + k by omega]) |>.symm)
  have hbounds : ∀ i ∈ List.range (readBE data 0x4C 4 / 24),
      fOff (readBE data 0x48 4) i + 2 ≤ data.length := by
    intro i hi
    by_contra hcon
    have hnone : fix_course_file data = none := by
      rw [fix_course_file, if_pos (by omega)]
      exact (fixRecords_isNone _ _ data 0).mpr ⟨i, hi, by omega⟩
    rw [hnone] at h
    exact Option.noConfusion h
  rw [fix_course_file, if_pos (by omega), hoff, hsize]
  exact fixRecords_allzero _ _ r 0
    (fun i hi => by rw [hrlen]; exact hbounds i hi)
    (fun i hi => hzero i (List.mem_range.mp hi))

/-- Witness for `c4_idempotent_of_disjoint` at the concrete slot
`demoSlot` (whose record array at 0x50 is disjoint from the header). -/
theorem c4_idempotent_witness :
    (fix_course_file demoSlot = some (demoSlotOut, 1) ∧
      (∀ i < readBE demoSlot 0x4C 4 / 24,
        fOff (readBE demoSlot 0x48 4) i + 2 ≤ 0x48 ∨
        0x50 ≤ fOff (readBE demoSlot 0x48 4) i)) ∧
    fix_course_file demoSlotOut = some (demoSlotOut, 0) :=
  ⟨⟨by decide, by decide⟩,
   c4_idempotent_of_disjoint demoSlot demoSlotOut 1 (by decide) (by decide)⟩

/-- C9 (confirmed): for a slot shorter than 0x50 bytes, or one whose
unvalidated header places some record's flag field outside the buffer,
the patch raises (models a `struct.error` from `unpack_from`/
`pack_into`) instead of returning a result or clamping. -/
theorem c9_out_of_range_raises (data : List Nat)
    (h : data.length < 0x50 ∨
      ∃ i < readBE data 0x4C 4 / 24,
        data.length < fOff (readBE data 0x48 4) i + 2) :
    fix_course_file data = none := by
  rcases h with hshort | ⟨i, hi, hout⟩
  · rw [fix_course_file, if_neg (by omega)]
  · by_cases hlen : 0x48 + 8 ≤ data.length
    · rw [fix_course_file, if_pos hlen]
      exact (fixRecords_isNone _ _ data 0).mpr ⟨i, List.mem_range.mpr hi, hout⟩
    · rw [fix_course_file, if_neg hlen]

/-- Witness for `c9_out_of_range_raises`: `c1data` is 0x50 bytes long
but its header points record 0's flag field past the end of the
buffer. -/
theorem c9_out_of_range_witness :
    (∃ i < readBE c1data 0x4C 4 / 24,
      c1data.length < fOff (readBE c1data 0x48 4) i + 2) ∧
    fix_course_file c1data = none :=
  ⟨by decide, c9_out_of_range_raises c1data (Or.inr (by decide))⟩

/-- Classification of a file's leading bytes (`scan_file`'s sniffing
chain).  `uncompressed` is the `U\xAA8-` container magic,
`proprietary` the LZ11 marker `0x11`, `unsupported` the LH high-nibble
`0x4`, `unrecognized` everything else.  `none` models the `IndexError`
of `first_4[0]` on an empty read. -/
inductive CompressionState where
  | uncompressed
  | proprietary
  | unsupported
  | unrecognized
deriving DecidableEq

def classify (first4 : List Nat) : Option CompressionState :=
  if first4 = [0x55, 0xAA, 0x38, 0x2D] then some CompressionState.uncompressed
  else
    match first4 with
    | [] => none
    | b0 :: _ =>
      some (if b0 = 0x11 then CompressionState.proprietary
        else if b0 / 16 = 4 then CompressionState.unsupported
        else CompressionState.unrecognized)

/-- A decoded U8 container, as the tool uses it: an ordered mapping of
top-level names to sub-file mappings of names to bytes. -/
def U8 : Type := List (String × List (String × List Nat))

/-- Python `mapping[key]` read access (`KeyError` as `none`). -/
def lookupStr {α : Type} : List (String × α) → String → Option α
  | [], _ => none
  | (k', v) :: rest, k => if k' = k then some v else lookupStr rest k

/-- Python `mapping[key] = value` on an (ordered) dict: replace in
place if present, else append. -/
def setStr {α : Type} : List (String × α) → String → α → List (String × α)
  | [], k, v => [(k, v)]
  | (k', v') :: rest, k, v =>
    if k' = k then (k', v) :: rest else (k', v') :: setStr rest k v

/-- The slot file name `course{i}.bin`. -/
def slotName (i : Nat) : String := "course" ++ toString i ++ ".bin"

/-- The `for i in range(1, 5)` loop of `scan_file` over the given slot
indices: look up `course{i}.bin`, run the patcher, and on a positive
fix count replace the slot's bytes and accumulate
`(total_fixes, total_areas_fixed)`.  `none` models a propagating
exception from `fix_course_file`. -/
def processAreasAux :
    List (String × List Nat) × Nat × Nat → List Nat →
    Option (List (String × List Nat) × Nat × Nat)
  | st, [] => some st
  | st, i :: rest =>
    match lookupStr st.1 (slotName i) with
    | none => processAreasAux st rest
    | some slotData =>
      match fix_course_file slotData with
      | none => none
      | some (newData, numFixes) =>
        if 0 < numFixes then
          processAreasAux (setStr st.1 (slotName i) newData, st.2.1 + numFixes, st.2.2 + 1) rest
        else
          processAreasAux st rest

/-- The per-file aggregation over the four fixed slots. -/
def processAreas (course : List (String × List Nat)) :
    Option (List (String × List Nat) × Nat × Nat) :=
  processAreasAux (course, 0, 0) [1, 2, 3, 4]

/-- Number of nonzero-flag records in slot `course{i}.bin` of `course`
(0 when the slot is absent). -/
def slotNonzero (course : List (String × List Nat)) (i : Nat) : Nat :=
  match lookupStr course (slotName i) with
  | none => 0
  | some d => nonzeroFlagCount d

/-- Observable outcome of a completed `scan_file` run: the bytes
written back to the file (`none` when no write occurs) and the
`total_fixes` / `total_areas_fixed` counters reported in the summary
line. -/
structure ScanResult where
  written : Option (List Nat)
  totalFixes : Nat
  totalAreasFixed : Nat
deriving DecidableEq

/-- `scan_file(fp)`, parametric in the external codecs: `dec`/`comp`
are `lz77.LZS11().Decompress11LZS`/`Compress11LZS` and `load`/`save`
are `nsmbpy2.u8.load`/`save` (codec failure modelled as `none`).
`Except.error ()` models a propagating exception; on `Except.ok` the
`written` field is the data passed to `fp.write_bytes`, or `none` when
the function returns without writing. -/
def scan_file (dec : List Nat → Option (List Nat)) (load : List Nat → Option U8)
    (save : U8 → List Nat) (comp : List Nat → Option (List Nat))
    (fileData : List Nat) : Except Unit ScanResult :=
  match classify (fileData.take 4) with
  | none => Except.error ()
  | some CompressionState.unsupported => Except.ok ⟨none, 0, 0⟩
  | some CompressionState.unrecognized => Except.ok ⟨none, 0, 0⟩
  | some c =>
    -- `is_compressed` is true exactly on the `proprietary` branch; the
    -- two `if is_compressed:` sites below match on `c` accordingly.
    match (match c with
      | CompressionState.proprietary => dec fileData
      | _ => some fileData) with
    | none => Except.error ()
    | some contBytes =>
      match load contBytes with
      | none => Except.error ()
      | some u8 =>
        if u8.map Prod.fst ≠ ["course"] then Except.ok ⟨none, 0, 0⟩
        else
          match lookupStr u8 "course" with
          | none => Except.error ()
          | some course =>
            match processAreas course with
            | none => Except.error ()
            | some (course2, totalFixes, totalAreasFixed) =>
              if 0 < totalFixes then
                match (match c with
                  | CompressionState.proprietary => comp (save (setStr u8 "course" course2))
                  | _ => some (save (setStr u8 "course" course2))) with
                | none => Except.error ()
                | some out => Except.ok ⟨some out, totalFixes, totalAreasFixed⟩
              else
                Except.ok ⟨none, totalFixes, totalAreasFixed⟩

theorem lookupStr_setStr_self {α : Type} (m : List (String × α)) (k : String) (v : α) :
    lookupStr (setStr m k v) k = some v := by
  induction m with
  | nil => simp [setStr, lookupStr]
  | cons p rest ih =>
    by_cases h : p.1 = k
    · simp [setStr, lookupStr, h]
    · simp only [setStr, lookupStr]
      rw [if_neg h, lookupStr, if_neg h]
      exact ih

theorem lookupStr_setStr_ne {α : Type} (m : List (String × α)) (k k' : String) (v : α)
    (h : k' ≠ k) : lookupStr (setStr m k v) k' = lookupStr m k' := by
  induction m with
  | nil =>
    simp only [setStr, lookupStr]
    rw [if_neg (fun hv => h hv.symm)]
  | cons p rest ih =>
    by_cases hp : p.1 = k
    · simp only [setStr]
      rw [if_pos hp, lookupStr, lookupStr]
      have hne : p.1 ≠ k' := fun hv => h (hv.symm.trans hp)
      rw [if_neg hne, if_neg hne]
    · simp only [setStr]
      rw [if_neg hp, lookupStr, lookupStr]
      by_cases hk' : p.1 = k'
      · rw [if_pos hk', if_pos hk']
      · rw [if_neg hk', if_neg hk']
        exact ih

/-- Soundness of the slot loop over an arbitrary duplicate-free slot
index list: on success, `total_fixes` grows by the total number of
nonzero-flag records over the present slots, `total_areas_fixed` by the
number of present slots with at least one such record, a slot's bytes
are replaced exactly when its fix count is positive, and all other
entries are untouched. -/
theorem processAreasAux_spec (L : List Nat) :
    ∀ (course m : List (String × List Nat)) (tf0 ta0 tf ta : Nat),
    (L.map slotName).Nodup →
    processAreasAux (course, tf0, ta0) L = some (m, tf, ta) →
    tf = tf0 + (L.map (slotNonzero course)).sum
    ∧ ta = ta0 + L.countP (fun i => decide (0 < slotNonzero course i))
    ∧ (∀ s : String, s ∉ L.map slotName → lookupStr m s = lookupStr course s)
    ∧ (∀ i ∈ L, ∀ d, lookupStr course (slotName i) = some d →
        ∃ r, fix_course_file d = some (r, nonzeroFlagCount d)
          ∧ lookupStr m (slotName i) = some (if 0 < nonzeroFlagCount d then r else d))
    ∧ (∀ i ∈ L, lookupStr course (slotName i) = none →
        lookupStr m (slotName i) = none) := by
  induction L with
  | nil =>
    intro course m tf0 ta0 tf ta _ h
    obtain ⟨rfl, rfl, rfl⟩ : course = m ∧ tf0 = tf ∧ ta0 = ta := by
      simpa [processAreasAux, Prod.ext_iff] using h
    simp
  | cons i rest ih =>
    intro course m tf0 ta0 tf ta hnd h
    rw [List.map_cons, List.nodup_cons] at hnd
    obtain ⟨hname_not_mem, hnd_rest⟩ := hnd
    have hname_ne : ∀ j ∈ rest, slotName j ≠ slotName i := fun j hj heq =>
      hname_not_mem (heq ▸ List.mem_map_of_mem slotName hj)
    cases hlook : lookupStr course (slotName i) with
    | none =>
      simp only [processAreasAux, hlook] at h
      obtain ⟨h1, h2, h3, h4, h5⟩ := ih course m tf0 ta0 tf ta hnd_rest h
      have hzero : slotNonzero course i = 0 := by
        rw [slotNonzero, hlook]
      refine ⟨?_, ?_, ?_, ?_, ?_⟩
      · rw [List.map_cons, List.sum_cons, hzero, h1]
        omega
      · rw [List.countP_cons, h2]
        simp [hzero]
      · intro s hs
        exact h3 s (fun hmem => hs (List.mem_cons_of_mem _ hmem))
      · intro j hj d hd
        rcases List.mem_cons.mp hj with rfl | hj'
        · rw [hlook] at hd
          exact Option.noConfusion hd
        · exact h4 j hj' d hd
      · intro j hj hd
        rcases List.mem_cons.mp hj with rfl | hj'
        · rw [h3 (slotName j) hname_not_mem, hd]
        · exact h5 j hj' hd
    | some d =>
      cases hfix : fix_course_file d with
      | none =>
        simp only [processAreasAux, hlook, hfix] at h
        exact Option.noConfusion h
      | some p =>
        obtain ⟨nd, nf⟩ := p
        have hnf : nf = nonzeroFlagCount d := (fix_course_file_spec d nd nf hfix).2.1
        have hsni : slotNonzero course i = nonzeroFlagCount d := by
          rw [slotNonzero, hlook]
        by_cases hpos : 0 < nf
        · simp only [processAreasAux, hlook, hfix, if_pos hpos] at h
          obtain ⟨h1, h2, h3, h4, h5⟩ :=
            ih (setStr course (slotName i) nd) m (tf0 + nf) (ta0 + 1) tf ta hnd_rest h
          have hlook' : ∀ j ∈ rest,
              lookupStr (setStr course (slotName i) nd) (slotName j)
                = lookupStr course (slotName j) :=
            fun j hj => lookupStr_setStr_ne course (slotName i) (slotName j) nd (hname_ne j hj)
          have hsn : ∀ j ∈ rest,
              slotNonzero (setStr course (slotName i) nd) j = slotNonzero course j := by
            intro j hj
            rw [slotNonzero, slotNonzero, hlook' j hj]
          refine ⟨?_, ?_, ?_, ?_, ?_⟩
          · rw [List.map_cons, List.sum_cons, h1, List.map_congr_left hsn, hsni]
            omega
          · rw [List.countP_cons, h2,
              List.countP_congr (fun j hj => by rw [hsn j hj]), hsni]
            have : (0 : Nat) < nonzeroFlagCount d := hnf ▸ hpos
            simp only [decide_eq_true_eq]
            rw [if_pos this]
            omega
          · intro s hs
            rw [h3 s (fun hmem => hs (List.mem_cons_of_mem _ hmem)),
              lookupStr_setStr_ne course (slotName i) s nd
                (fun heq => hs (heq ▸ List.mem_cons_self _ _))]
          · intro j hj d' hd'
            rcases List.mem_cons.mp hj with rfl | hj'
            · rw [hlook] at hd'
              obtain rfl : d = d' := Option.some.inj hd'
              refine ⟨nd, hnf ▸ hfix, ?_⟩
              rw [h3 (slotName j) hname_not_mem, lookupStr_setStr_self,
                if_pos (hnf ▸ hpos)]
            · obtain ⟨r, hr1, hr2⟩ := h4 j hj' d' (by rw [hlook' j hj', hd'])
              exact ⟨r, hr1, hr2⟩
          · intro j hj hd'
            rcases List.mem_cons.mp hj with rfl | hj'
            · rw [hlook] at hd'
              exact Option.noConfusion hd'
            · exact h5 j hj' (by rw [hlook' j hj', hd'])
        · simp only [processAreasAux, hlook, hfix, if_neg hpos] at h
          obtain ⟨h1, h2, h3, h4, h5⟩ := ih course m tf0 ta0 tf ta hnd_rest h
          have hnf0 : nonzeroFlagCount d = 0 := by omega
          refine ⟨?_, ?_, ?_, ?_, ?_⟩
          · rw [List.map_cons, List.sum_cons, h1, hsni, hnf0]
            omega
          · rw [List.countP_cons, h2, hsni, hnf0]
            simp
          · intro s hs
            exact h3 s (fun hmem => hs (List.mem_cons_of_mem _ hmem))
          · intro j hj d' hd'
            rcases List.mem_cons.mp hj with rfl | hj'
            · rw [hlook] at hd'
              obtain rfl : d = d' := Option.some.inj hd'
              refine ⟨nd, hnf ▸ hfix, ?_⟩
              rw [h3 (slotName j) hname_not_mem, hlook, if_neg (by omega)]
            · exact h4 j hj' d' hd'
          · intro j hj hd'
            rcases List.mem_cons.mp hj with rfl | hj'
            · rw [hlook] at hd'
              exact Option.noConfusion hd'
            · exact h5 j hj' hd'

/-- A demo `"course"` mapping: area 1 present with one nonzero flag,
area 3 present with none, areas 2 and 4 absent. -/
def demoCourse : List (String × List Nat) :=
  [("course1.bin", demoSlot), ("course3.bin", demoSlotOut)]

/-- `demoCourse` after the per-file loop: only area 1 was replaced. -/
def demoCourseOut : List (String × List Nat) :=
  [("course1.bin", demoSlotOut), ("course3.bin", demoSlotOut)]

/-- C6 (confirmed): on a successfully processed target container,
`total_fixes` is the total number of records with a nonzero pre-patch
flag over the present slots `course1.bin`..`course4.bin`,
`total_areas_fixed` is the number of present slots with at least one
such record, a slot's bytes are replaced in the mapping exactly when
its own fix count is positive (and are kept verbatim otherwise), and a
missing slot stays missing — so absence of one slot never affects
processing of another. -/
theorem c6_aggregation (course m : List (String × List Nat)) (tf ta : Nat)
    (h : processAreas course = some (m, tf, ta)) :
    tf = slotNonzero course 1 + slotNonzero course 2 +
      slotNonzero course 3 + slotNonzero course 4
    ∧ ta = List.countP (fun i => decide (0 < slotNonzero course i)) [1, 2, 3, 4]
    ∧ (∀ i ∈ [1, 2, 3, 4], ∀ d, lookupStr course (slotName i) = some d →
        ∃ r, fix_course_file d = some (r, nonzeroFlagCount d)
          ∧ lookupStr m (slotName i) = some (if 0 < nonzeroFlagCount d then r else d))
    ∧ (∀ i ∈ [1, 2, 3, 4], lookupStr course (slotName i) = none →
        lookupStr m (slotName i) = none) := by
  obtain ⟨h1, h2, h3, h4, h5⟩ :=
    processAreasAux_spec [1, 2, 3, 4] course m 0 0 tf ta (by decide) h
  refine ⟨?_, by simpa using h2, h4, h5⟩
  rw [h1]
  simp [Nat.add_assoc]

/-- Witness for `c6_aggregation` at the concrete container
`demoCourse`. -/
theorem c6_aggregation_witness :
    processAreas demoCourse = some (demoCourseOut, 1, 1) ∧
    1 = slotNonzero demoCourse 1 + slotNonzero demoCourse 2 +
      slotNonzero demoCourse 3 + slotNonzero demoCourse 4 :=
  ⟨by decide, (c6_aggregation demoCourse demoCourseOut 1 1 (by decide)).1⟩

/-- C5 (confirmed): classification of a 4-byte leading sequence —
`uncompressed` exactly for the `U\xAA8-` magic; otherwise
`proprietary` exactly when byte 0 is `0x11`; otherwise `unsupported`
exactly when byte 0's high nibble is `0x4`; otherwise `unrecognized`.
In the `unsupported` and `unrecognized` cases `scan_file` returns
without writing and without consulting the rest of the file or any
codec (the result is the same for every tail and every codec). -/
theorem c5_classification (b0 b1 b2 b3 : Nat) :
    (classify [b0, b1, b2, b3] = some CompressionState.uncompressed ↔
      [b0, b1, b2, b3] = [0x55, 0xAA, 0x38, 0x2D])
    ∧ ([b0, b1, b2, b3] ≠ [0x55, 0xAA, 0x38, 0x2D] →
        (classify [b0, b1, b2, b3] = some CompressionState.proprietary ↔ b0 = 0x11))
    ∧ ([b0, b1, b2, b3] ≠ [0x55, 0xAA, 0x38, 0x2D] → b0 ≠ 0x11 →
        (classify [b0, b1, b2, b3] = some CompressionState.unsupported ↔ b0 / 16 = 4))
    ∧ ([b0, b1, b2, b3] ≠ [0x55, 0xAA, 0x38, 0x2D] → b0 ≠ 0x11 → b0 / 16 ≠ 4 →
        classify [b0, b1, b2, b3] = some CompressionState.unrecognized)
    ∧ (∀ (rest : List Nat) (dec : List Nat → Option (List Nat))
        (load : List Nat → Option U8) (save : U8 → List Nat)
        (comp : List Nat → Option (List Nat)),
        (classify [b0, b1, b2, b3] = some CompressionState.unsupported ∨
          classify [b0, b1, b2, b3] = some CompressionState.unrecognized) →
        scan_file dec load save comp ([b0, b1, b2, b3] ++ rest) = Except.ok ⟨none, 0, 0⟩) := by
  refine ⟨?_, ?_, ?_, ?_, ?_⟩
  · constructor
    · intro h
      by_contra hne
      simp only [classify, if_neg hne] at h
      split_ifs at h <;> exact CompressionState.noConfusion (Option.some.inj h)
    · intro h
      rw [classify, if_pos h]
  · intro hne
    simp only [classify, if_neg hne]
    constructor
    · intro h
      split_ifs at h with h1 h2 <;>
        first
          | exact h1
          | exact CompressionState.noConfusion (Option.some.inj h)
    · intro h
      rw [if_pos h]
  · intro hne hb0
    simp only [classify, if_neg hne]
    rw [if_neg hb0]
    constructor
    · intro h
      split_ifs at h with h1 <;>
        first
          | exact h1
          | exact CompressionState.noConfusion (Option.some.inj h)
    · intro h
      rw [if_pos h]
  · intro hne hb0 hnib
    simp only [classify, if_neg hne]
    rw [if_neg hb0, if_neg hnib]
  · intro rest dec load save comp hcase
    have htake : ([b0, b1, b2, b3] ++ rest).take 4 = [b0, b1, b2, b3] := by
      have hlen : ([b0, b1, b2, b3] : List Nat).length = 4 := rfl
      rw [← hlen, List.take_left]
    rcases hcase with hcls | hcls <;> simp only [scan_file, htake, hcls]

/-- Witness for `c5_classification`'s early-return clause at a
concrete LH-compressed header `0x41`. -/
theorem c5_classification_witness :
    classify [0x41, 0, 0, 0] = some CompressionState.unsupported ∧
    scan_file (fun _ => none) (fun _ => none) (fun _ => []) (fun _ => none)
        ([0x41, 0, 0, 0] ++ [1, 2, 3]) = Except.ok ⟨none, 0, 0⟩ :=
  ⟨by decide,
   (c5_classification 0x41 0 0 0).2.2.2.2 [1, 2, 3] _ _ _ _ (Or.inl (by decide))⟩

/-- C3 (confirmed): when `scan_file` completes without raising, it
writes back to the file exactly when `total_fixes` is positive; in
particular a file sniffed `unsupported` or `unrecognized`, a decoded
container whose top-level key list is not exactly `["course"]`, and a
target whose slots have no nonzero flags (`total_fixes = 0`) are all
left unwritten. -/
theorem c3_write_iff_fixes (dec : List Nat → Option (List Nat))
    (load : List Nat → Option U8) (save : U8 → List Nat)
    (comp : List Nat → Option (List Nat)) (fileData : List Nat) (res : ScanResult)
    (h : scan_file dec load save comp fileData = Except.ok res) :
    (res.written.isSome ↔ 0 < res.totalFixes)
    ∧ ((classify (fileData.take 4) = some CompressionState.unsupported ∨
        classify (fileData.take 4) = some CompressionState.unrecognized) →
        res = ⟨none, 0, 0⟩)
    ∧ (∀ contBytes u8,
        ((classify (fileData.take 4) = some CompressionState.uncompressed ∧
            contBytes = fileData) ∨
          (classify (fileData.take 4) = some CompressionState.proprietary ∧
            dec fileData = some contBytes)) →
        load contBytes = some u8 → u8.map Prod.fst ≠ ["course"] → res = ⟨none, 0, 0⟩)
    ∧ (res.totalFixes = 0 → res.written = none) := by
  rcases hcls : classify (fileData.take 4) with _ | c
  · simp only [scan_file, hcls] at h
    exact Except.noConfusion h
  cases c with
  | unsupported =>
    simp only [scan_file, hcls] at h
    obtain rfl := Except.ok.inj h
    exact ⟨by simp, fun _ => rfl, fun _ _ _ _ _ => rfl, fun _ => rfl⟩
  | unrecognized =>
    simp only [scan_file, hcls] at h
    obtain rfl := Except.ok.inj h
    exact ⟨by simp, fun _ => rfl, fun _ _ _ _ _ => rfl, fun _ => rfl⟩
  | uncompressed =>
    simp only [scan_file, hcls] at h
    cases hload : load fileData with
    | none =>
      simp only [hload] at h
      exact Except.noConfusion h
    | some u8 =>
      simp only [hload] at h
      by_cases hkeys : u8.map Prod.fst ≠ ["course"]
      · rw [if_pos hkeys] at h
        obtain rfl := Except.ok.inj h
        exact ⟨by simp, fun _ => rfl, fun _ _ _ _ _ => rfl, fun _ => rfl⟩
      · rw [if_neg hkeys] at h
        cases hcourse : lookupStr u8 "course" with
        | none =>
          simp only [hcourse] at h
          exact Except.noConfusion h
        | some course =>
          simp only [hcourse] at h
          cases hpa : processAreas course with
          | none =>
            simp only [hpa] at h
            exact Except.noConfusion h
          | some trip =>
            obtain ⟨course2, tf, ta⟩ := trip
            simp only [hpa] at h
            by_cases hpos : 0 < tf
            · rw [if_pos hpos] at h
              obtain rfl := Except.ok.inj h
              refine ⟨by simpa using hpos, ?_, ?_, ?_⟩
              · rintro (hc | hc) <;>
                  exact CompressionState.noConfusion (Option.some.inj hc)
              · rintro contBytes u8' (⟨_, rfl⟩ | ⟨hc, _⟩) hload' hkeys'
                · rw [hload] at hload'
                  obtain rfl := Option.some.inj hload'
                  exact absurd hkeys' hkeys
                · exact CompressionState.noConfusion (Option.some.inj hc)
              · intro h0
                exact absurd h0 (show ¬tf = 0 by omega)
            · rw [if_neg hpos] at h
              obtain rfl := Except.ok.inj h
              refine ⟨by simpa using hpos, ?_, ?_, fun _ => rfl⟩
              · rintro (hc | hc) <;>
                  exact CompressionState.noConfusion (Option.some.inj hc)
              · rintro contBytes u8' (⟨_, rfl⟩ | ⟨hc, _⟩) hload' hkeys'
                · rw [hload] at hload'
                  obtain rfl := Option.some.inj hload'
                  exact absurd hkeys' hkeys
                · exact CompressionState.noConfusion (Option.some.inj hc)
  | proprietary =>
    simp only [scan_file, hcls] at h
    cases hdec : dec fileData with
    | none =>
      simp only [hdec] at h
      exact Except.noConfusion h
    | some contBytes0 =>
      simp only [hdec] at h
      cases hload : load contBytes0 with
      | none =>
        simp only [hload] at h
        exact Except.noConfusion h
      | some u8 =>
        simp only [hload] at h
        by_cases hkeys : u8.map Prod.fst ≠ ["course"]
        · rw [if_pos hkeys] at h
          obtain rfl := Except.ok.inj h
          exact ⟨by simp, fun _ => rfl, fun _ _ _ _ _ => rfl, fun _ => rfl⟩
        · rw [if_neg hkeys] at h
          cases hcourse : lookupStr u8 "course" with
          | none =>
            simp only [hcourse] at h
            exact Except.noConfusion h
          | some course =>
            simp only [hcourse] at h
            cases hpa : processAreas course with
            | none =>
              simp only [hpa] at h
              exact Except.noConfusion h
            | some trip =>
              obtain ⟨course2, tf, ta⟩ := trip
              simp only [hpa] at h
              by_cases hpos : 0 < tf
              · rw [if_pos hpos] at h
                cases hcomp : comp (save (setStr u8 "course" course2)) with
                | none =>
                  simp only [hcomp] at h
                  exact Except.noConfusion h
                | some out =>
                  simp only [hcomp] at h
                  obtain rfl := Except.ok.inj h
                  refine ⟨by simpa using hpos, ?_, ?_, ?_⟩
                  · rintro (hc | hc) <;>
                      exact CompressionState.noConfusion (Option.some.inj hc)
                  · rintro contBytes u8' (⟨hc, _⟩ | ⟨_, hdec'⟩) hload' hkeys'
                    · exact CompressionState.noConfusion (Option.some.inj hc)
                    · obtain rfl := Option.some.inj hdec'
                      rw [hload] at hload'
                      obtain rfl := Option.some.inj hload'
                      exact absurd hkeys' hkeys
                  · intro h0
                    exact absurd h0 (show ¬tf = 0 by omega)
              · rw [if_neg hpos] at h
                obtain rfl := Except.ok.inj h
                refine ⟨by simpa using hpos, ?_, ?_, fun _ => rfl⟩
                · rintro (hc | hc) <;>
                    exact CompressionState.noConfusion (Option.some.inj hc)
                · rintro contBytes u8' (⟨hc, _⟩ | ⟨_, hdec'⟩) hload' hkeys'
                  · exact CompressionState.noConfusion (Option.some.inj hc)
                  · obtain rfl := Option.some.inj hdec'
                    rw [hload] at hload'
                    obtain rfl := Option.some.inj hload'
                    exact absurd hkeys' hkeys

/-- Witness for `c3_write_iff_fixes` at a concrete unrecognized file. -/
theorem c3_write_iff_fixes_witness :
    scan_file (fun _ => none) (fun _ => none) (fun _ => []) (fun _ => none)
        [0x41, 0, 0, 0] = Except.ok ⟨none, 0, 0⟩
    ∧ ((⟨none, 0, 0⟩ : ScanResult).written.isSome ↔
        0 < (⟨none, 0, 0⟩ : ScanResult).totalFixes) :=
  ⟨rfl,
   (c3_write_iff_fixes (fun _ => none) (fun _ => none) (fun _ => []) (fun _ => none)
      [0x41, 0, 0, 0] ⟨none, 0, 0⟩ rfl).1⟩

/-- ASCII lowering of one character (`str.lower()` restricted to the
ASCII range relevant to the suffix comparisons). -/
def charLower (c : Char) : Char :=
  if 65 ≤ c.toNat ∧ c.toNat ≤ 90 then Char.ofNat (c.toNat + 32) else c

/-- `str.lower()` on a file-name fragment. -/
def strLower (s : List Char) : List Char := s.map charLower

/-- Index of the last `'.'` in a name (`name.rfind('.')`, `none` for -1). -/
def lastIndexOfDot : List Char → Option Nat
  | [] => none
  | c :: cs =>
    match lastIndexOfDot cs with
    | some i => some (i + 1)
    | none => if c = '.' then some 0 else none

/-- `pathlib.PurePath.suffix`: the final component's last dot-suffix,
empty when the only dot is leading (hidden-file marker) or trailing. -/
def pathSuffix (name : List Char) : List Char :=
  match lastIndexOfDot name with
  | none => []
  | some i => if 0 < i ∧ i < name.length - 1 then name.drop i else []

/-- `pathlib.PurePath.suffixes`: strip leading dots, split on `'.'`,
and return the dot-prefixed parts after the first; empty for a name
ending in a dot. -/
def pathSuffixes (name : List Char) : List (List Char) :=
  if name.getLast? = some '.' then []
  else (((name.dropWhile (fun c => c = '.')).splitOn '.').tail).map (fun s => '.' :: s)

/-- `does_path_look_like_level(fp)`: final suffix `.arc`
(case-insensitive), or at least two suffixes ending in `.arc`, `.lz`
(case-insensitive). -/
def does_path_look_like_level (name : List Char) : Bool :=
  if strLower (pathSuffix name) = ".arc".toList then true
  else if 2 ≤ (pathSuffixes name).length
      ∧ strLower ((pathSuffixes name).getD ((pathSuffixes name).length - 2) []) = ".arc".toList
      ∧ strLower ((pathSuffixes name).getD ((pathSuffixes name).length - 1) []) = ".lz".toList then
    true
  else false

/-- A directory entry as seen by `Path.iterdir()`: a plain file or a
subdirectory with its children. -/
inductive FSEntry where
  | file : List Char → FSEntry
  | dir : List Char → List FSEntry → FSEntry

def entryName : FSEntry → List Char
  | FSEntry.file n => n
  | FSEntry.dir n _ => n

/-- Lexicographic (code-point) string order used by `sorted()` on the
sibling paths of one directory. -/
def nameLe : List Char → List Char → Bool
  | [], _ => true
  | _ :: _, [] => false
  | a :: as, b :: bs =>
    if a.toNat < b.toNat then true
    else if b.toNat < a.toNat then false
    else nameLe as bs

def insertEntry (e : FSEntry) : List FSEntry → List FSEntry
  | [] => [e]
  | x :: xs =>
    if nameLe (entryName e) (entryName x) then e :: x :: xs else x :: insertEntry e xs

/-- `sorted(fp.iterdir())` (insertion sort by name; directory entries
have pairwise distinct names, so any stable comparison sort agrees). -/
def sortEntries : List FSEntry → List FSEntry
  | [] => []
  | x :: xs => insertEntry x (sortEntries xs)

theorem mem_insertEntry {e x : FSEntry} : ∀ {l : List FSEntry},
    x ∈ insertEntry e l → x = e ∨ x ∈ l := by
  intro l
  induction l with
  | nil =>
    intro h
    simp only [insertEntry] at h
    exact Or.inl (List.mem_singleton.mp h)
  | cons y ys ih =>
    intro h
    simp only [insertEntry] at h
    split at h
    · rcases List.mem_cons.mp h with rfl | h'
      · exact Or.inl rfl
      · exact Or.inr h'
    · rcases List.mem_cons.mp h with rfl | h'
      · exact Or.inr (List.mem_cons_self _ _)
      · rcases ih h' with h'' | h''
        · exact Or.inl h''
        · exact Or.inr (List.mem_cons_of_mem _ h'')

theorem mem_sortEntries {x : FSEntry} : ∀ {l : List FSEntry},
    x ∈ sortEntries l → x ∈ l := by
  intro l
  induction l with
  | nil => intro h; exact absurd h (List.not_mem_nil x)
  | cons y ys ih =>
    intro h
    rcases mem_insertEntry h with rfl | h'
    · exact List.mem_cons_self _ _
    · exact List.mem_cons_of_mem _ (ih h')

theorem sizeOf_children_lt {nm : List Char} {ch entries : List FSEntry}
    (h : FSEntry.dir nm ch ∈ entries) : sizeOf ch < sizeOf entries := by
  have h1 := List.sizeOf_lt_of_mem h
  have h2 : sizeOf (FSEntry.dir nm ch) = 1 + sizeOf nm + sizeOf ch := by
    simp [FSEntry.dir.sizeOf_spec]
  omega

/-- The console line printed by `scan_file_safe` on a caught
exception. -/
def errMsg (p : List Char) : List Char :=
  "ERROR while checking \"".toList ++ p ++ "\":".toList

/-- `scan_file_safe(fp)`: run the per-file processing; catch any
exception, printing an error line naming the path (the traceback
follows it).  The result pairs the (absent, on error) outcome with the
error lines printed. -/
def scan_file_safe {α : Type} (process : List Char → Except Unit α) (p : List Char) :
    Option α × List (List Char) :=
  match process p with
  | Except.ok a => (some a, [])
  | Except.error _ => (none, [errMsg p])

/-- `scan_folder(fp, recursive)`: process every direct child file whose
name looks like a level (in sorted order) through `scan_file_safe`,
then, if `recursive`, walk every direct child subdirectory (in sorted
order).  The per-file processing is the parameter `process`; the
result lists each processed path with its wrapped outcome. -/
def scan_folder {α : Type} (process : List Char → Except Unit α) (recursive : Bool)
    (pfx : List Char) (entries : List FSEntry) :
    List (List Char × (Option α × List (List Char))) :=
  ((sortEntries entries).filterMap (fun e =>
    match e with
    | FSEntry.file n =>
      if does_path_look_like_level n then
        some (pfx ++ n, scan_file_safe process (pfx ++ n))
      else
        none
    | FSEntry.dir _ _ => none))
  ++ (if recursive then
      (sortEntries entries).attach.foldr (fun x acc =>
        match x with
        | ⟨FSEntry.file _, _⟩ => acc
        | ⟨FSEntry.dir n children, _⟩ =>
          scan_folder process true (pfx ++ n ++ ['/']) children ++ acc) []
    else [])
termination_by sizeOf entries
decreasing_by
  rename_i hmem
  exact sizeOf_children_lt (mem_sortEntries hmem)

theorem foldr_attach_eq {β : Type} (l : List FSEntry) (g : FSEntry → β → β) (b : β) :
    l.attach.foldr (fun x acc => g x.1 acc) b = l.foldr g b := by
  have hm : l.attach.map Subtype.val = l := List.attach_map_subtype_val l
  calc l.attach.foldr (fun x acc => g x.1 acc) b
      = (l.attach.map Subtype.val).foldr g b := (List.foldr_map _ _ _ _).symm
    _ = l.foldr g b := by rw [hm]

/-- Unfolding equation for `scan_folder` with the membership-proof
plumbing of the recursion removed. -/
theorem scan_folder_eq {α : Type} (process : List Char → Except Unit α) (recursive : Bool)
    (pfx : List Char) (entries : List FSEntry) :
    scan_folder process recursive pfx entries =
      ((sortEntries entries).filterMap (fun e =>
        match e with
        | FSEntry.file n =>
          if does_path_look_like_level n then
            some (pfx ++ n, scan_file_safe process (pfx ++ n))
          else
            none
        | FSEntry.dir _ _ => none))
      ++ (if recursive then
          (sortEntries entries).foldr (fun e acc =>
            match e with
            | FSEntry.file _ => acc
            | FSEntry.dir n children =>
              scan_folder process true (pfx ++ n ++ ['/']) children ++ acc) []
        else []) := by
  rw [scan_folder]
  congr 1
  cases recursive with
  | false => rfl
  | true =>
    simp only [if_true]
    have hfun : (fun (x : {x // x ∈ sortEntries entries}) acc =>
        match x with
        | ⟨FSEntry.file _, _⟩ => acc
        | ⟨FSEntry.dir n children, _⟩ =>
          scan_folder process true (pfx ++ n ++ ['/']) children ++ acc)
      = (fun (x : {x // x ∈ sortEntries entries}) acc =>
          (fun e acc' =>
            match e with
            | FSEntry.file _ => acc'
            | FSEntry.dir n children =>
              scan_folder process true (pfx ++ n ++ ['/']) children ++ acc') x.1 acc) := by
      funext x acc
      obtain ⟨e, he⟩ := x
      cases e <;> rfl
    rw [hfun]
    exact foldr_attach_eq (sortEntries entries)
      (fun e acc' =>
        match e with
        | FSEntry.file _ => acc'
        | FSEntry.dir n children =>
          scan_folder process true (pfx ++ n ++ ['/']) children ++ acc') []

/-- What the `path` positional argument resolves to: a single file, a
directory with the given entries, or nothing. -/
inductive PathTarget where
  | file : PathTarget
  | dir : List FSEntry → PathTarget
  | missing : PathTarget

/-- `main(argv)` after argument parsing: a single file is processed
directly (exceptions propagate to the top level), a directory goes
through `scan_folder`, and a missing path only reports an error
message. -/
def main_run {α : Type} (process : List Char → Except Unit α) (recursive : Bool)
    (p : List Char) (t : PathTarget) :
    Except Unit (List (List Char × (Option α × List (List Char)))) :=
  match t with
  | PathTarget.file => Except.map (fun a => [(p, (some a, []))]) (process p)
  | PathTarget.dir entries => Except.ok (scan_folder process recursive (p ++ ['/']) entries)
  | PathTarget.missing => Except.ok []

theorem filterMap_paths_congr {α β : Type} (p1 : List Char → Except Unit α)
    (p2 : List Char → Except Unit β) (pfx : List Char) :
    ∀ l : List FSEntry,
    ((l.filterMap (fun e =>
      match e with
      | FSEntry.file n =>
        if does_path_look_like_level n then
          some (pfx ++ n, scan_file_safe p1 (pfx ++ n))
        else
          none
      | FSEntry.dir _ _ => none)).map Prod.fst)
    = ((l.filterMap (fun e =>
      match e with
      | FSEntry.file n =>
        if does_path_look_like_level n then
          some (pfx ++ n, scan_file_safe p2 (pfx ++ n))
        else
          none
      | FSEntry.dir _ _ => none)).map Prod.fst) := by
  intro l
  induction l with
  | nil => rfl
  | cons e rest ih =>
    cases e with
    | file nm =>
      simp only [List.filterMap_cons]
      by_cases hn : does_path_look_like_level nm = true
      · rw [if_pos hn, if_pos hn]
        simp only [List.map_cons]
        rw [ih]
      · rw [if_neg hn, if_neg hn]
        exact ih
    | dir nm ch =>
      simp only [List.filterMap_cons]
      exact ih

theorem foldr_paths_congr {α β : Type} (p1 : List Char → Except Unit α)
    (p2 : List Char → Except Unit β) (pfx : List Char) :
    ∀ l : List FSEntry,
    (∀ nm ch, FSEntry.dir nm ch ∈ l →
      (scan_folder p1 true (pfx ++ nm ++ ['/']) ch).map Prod.fst
        = (scan_folder p2 true (pfx ++ nm ++ ['/']) ch).map Prod.fst) →
    ((l.foldr (fun e acc =>
      match e with
      | FSEntry.file _ => acc
      | FSEntry.dir n children =>
        scan_folder p1 true (pfx ++ n ++ ['/']) children ++ acc) []).map Prod.fst)
    = ((l.foldr (fun e acc =>
      match e with
      | FSEntry.file _ => acc
      | FSEntry.dir n children =>
        scan_folder p2 true (pfx ++ n ++ ['/']) children ++ acc) []).map Prod.fst) := by
  intro l
  induction l with
  | nil => intro _; rfl
  | cons e rest ih =>
    intro hmem
    cases e with
    | file nm =>
      simp only [List.foldr_cons]
      exact ih (fun nm' ch' h => hmem nm' ch' (List.mem_cons_of_mem _ h))
    | dir nm ch =>
      simp only [List.foldr_cons, List.map_append]
      rw [hmem nm ch (List.mem_cons_self _ _),
        ih (fun nm' ch' h => hmem nm' ch' (List.mem_cons_of_mem _ h))]

theorem scan_folder_paths_congr {α β : Type} (p1 : List Char → Except Unit α)
    (p2 : List Char → Except Unit β) :
    ∀ (n : Nat) (entries : List FSEntry), sizeOf entries ≤ n →
    ∀ (r : Bool) (pfx : List Char),
    (scan_folder p1 r pfx entries).map Prod.fst
      = (scan_folder p2 r pfx entries).map Prod.fst := by
  intro n
  induction n with
  | zero =>
    intro entries hsz
    have h1 : 1 ≤ sizeOf entries := by cases entries <;> simp_arith
    omega
  | succ n ih =>
    intro entries hsz r pfx
    rw [scan_folder_eq, scan_folder_eq, List.map_append, List.map_append]
    congr 1
    · exact filterMap_paths_congr p1 p2 pfx (sortEntries entries)
    · cases r with
      | false => rfl
      | true =>
        simp only [eq_self_iff_true, if_true]
        refine foldr_paths_congr p1 p2 pfx (sortEntries entries) (fun nm ch hmem => ?_)
        have hch : sizeOf ch < sizeOf entries := sizeOf_children_lt (mem_sortEntries hmem)
        exact ih ch (by omega) true (pfx ++ nm ++ ['/'])

theorem mem_foldr_dirs {α : Type} (process : List Char → Except Unit α) (pfx : List Char) :
    ∀ (l : List FSEntry) (x : List Char × (Option α × List (List Char))),
    x ∈ l.foldr (fun e acc =>
      match e with
      | FSEntry.file _ => acc
      | FSEntry.dir n children =>
        scan_folder process true (pfx ++ n ++ ['/']) children ++ acc) [] →
    ∃ nm ch, FSEntry.dir nm ch ∈ l ∧
      x ∈ scan_folder process true (pfx ++ nm ++ ['/']) ch := by
  intro l
  induction l with
  | nil =>
    intro x hx
    exact absurd hx (List.not_mem_nil x)
  | cons e rest ih =>
    intro x hx
    cases e with
    | file nm =>
      simp only [List.foldr_cons] at hx
      obtain ⟨nm', ch', h1, h2⟩ := ih x hx
      exact ⟨nm', ch', List.mem_cons_of_mem _ h1, h2⟩
    | dir nm ch =>
      simp only [List.foldr_cons] at hx
      rcases List.mem_append.mp hx with h | h
      · exact ⟨nm, ch, List.mem_cons_self _ _, h⟩
      · obtain ⟨nm', ch', h1, h2⟩ := ih x h
        exact ⟨nm', ch', List.mem_cons_of_mem _ h1, h2⟩

theorem scan_folder_outcome {α : Type} (process : List Char → Except Unit α) :
    ∀ (n : Nat) (entries : List FSEntry), sizeOf entries ≤ n →
    ∀ (r : Bool) (pfx : List Char) (x : List Char × (Option α × List (List Char))),
    x ∈ scan_folder process r pfx entries →
    x.2 = scan_file_safe process x.1 := by
  intro n
  induction n with
  | zero =>
    intro entries hsz
    have h1 : 1 ≤ sizeOf entries := by cases entries <;> simp_arith
    omega
  | succ n ih =>
    intro entries hsz r pfx x hx
    rw [scan_folder_eq] at hx
    rcases List.mem_append.mp hx with h | h
    · obtain ⟨e, he, heq⟩ := List.mem_filterMap.mp h
      cases e with
      | file nm =>
        dsimp only at heq
        by_cases hn : does_path_look_like_level nm = true
        · rw [if_pos hn] at heq
          obtain rfl := Option.some.inj heq
          rfl
        · rw [if_neg hn] at heq
          exact Option.noConfusion heq
      | dir nm ch =>
        dsimp only at heq
        exact Option.noConfusion heq
    · cases r with
      | false => simp at h
      | true =>
        simp only [eq_self_iff_true, if_true] at h
        obtain ⟨nm, ch, hmem, hx'⟩ := mem_foldr_dirs process pfx (sortEntries entries) x h
        have hch : sizeOf ch < sizeOf entries := sizeOf_children_lt (mem_sortEntries hmem)
        exact ih ch (by omega) true (pfx ++ nm ++ ['/']) x hx'

/-- C8 (confirmed): an exception raised while processing one candidate
during a directory walk is caught by `scan_file_safe`, logged with the
file path, and does not propagate — which files the walk processes does
not depend on the processing outcomes, and every processed file's
result goes through the catching wrapper independently.  When the path
is a single file, `main` calls the processing directly, so an error
propagates to the top level. -/
theorem c8_error_isolation {α β : Type} (process : List Char → Except Unit α)
    (process' : List Char → Except Unit β) :
    (∀ p : List Char, process p = Except.error () →
      scan_file_safe process p = (none, [errMsg p]))
    ∧ (∀ (r : Bool) (pfx : List Char) (entries : List FSEntry),
        (scan_folder process r pfx entries).map Prod.fst
          = (scan_folder process' r pfx entries).map Prod.fst)
    ∧ (∀ (r : Bool) (pfx : List Char) (entries : List FSEntry)
        (x : List Char × (Option α × List (List Char))),
        x ∈ scan_folder process r pfx entries → x.2 = scan_file_safe process x.1)
    ∧ (∀ (p : List Char) (r : Bool),
        main_run process r p PathTarget.file
          = Except.map (fun a => [(p, (some a, []))]) (process p))
    ∧ (∀ (p : List Char) (r : Bool), process p = Except.error () →
        main_run process r p PathTarget.file = Except.error ()) := by
  refine ⟨?_, ?_, ?_, ?_, ?_⟩
  · intro p hp
    rw [scan_file_safe, hp]
  · intro r pfx entries
    exact scan_folder_paths_congr process process' (sizeOf entries) entries le_rfl r pfx
  · intro r pfx entries x hx
    exact scan_folder_outcome process (sizeOf entries) entries le_rfl r pfx x hx
  · intro p r
    rfl
  · intro p r hp
    rw [main_run, hp]
    rfl

def failProc : List Char → Except Unit Unit := fun _ => Except.error ()

def okProc : List Char → Except Unit Unit := fun _ => Except.ok ()

/-- Witness for `c8_error_isolation` at a concrete failing processing
function. -/
theorem c8_error_isolation_witness :
    scan_file_safe failProc "x.arc".toList = (none, [errMsg "x.arc".toList])
    ∧ main_run failProc false "x.arc".toList PathTarget.file = Except.error () :=
  ⟨(c8_error_isolation failProc okProc).1 _ rfl,
   (c8_error_isolation failProc okProc).2.2.2.2 _ false rfl⟩

/-- C10 (confirmed): a file named exactly `.arc` or `.arc.lz` is *not*
accepted: pathlib treats the leading dot as a hidden-file marker, so
`.arc` has no suffix at all and `.arc.lz` has the single suffix
`.lz` — while `a.arc` and `b.arc.lz` are accepted. -/
theorem c10_hidden_file_names :
    does_path_look_like_level ".arc".toList = false
    ∧ does_path_look_like_level ".arc.lz".toList = false
    ∧ pathSuffix ".arc".toList = [] ∧ pathSuffixes ".arc".toList = []
    ∧ pathSuffix ".arc.lz".toList = ".lz".toList
    ∧ pathSuffixes ".arc.lz".toList = [".lz".toList]
    ∧ does_path_look_like_level "a.arc".toList = true
    ∧ does_path_look_like_level "b.arc.lz".toList = true := by
  decide

/-- The scenario directory: files `a.arc`, `b.ARC.LZ`, `c.txt` and a
subdirectory `sub/` containing `d.arc` (given unsorted, as
`iterdir()` may). -/
def demoEntries : List FSEntry :=
  [FSEntry.file "c.txt".toList,
   FSEntry.dir "sub".toList [FSEntry.file "d.arc".toList],
   FSEntry.file "b.ARC.LZ".toList,
   FSEntry.file "a.arc".toList]

/-- C7 (confirmed): the candidate filter accepts a name exactly when
its final suffix lowers to `.arc` or its final two suffixes lower to
`.arc`, `.lz`; and on the scenario directory the non-recursive walk
processes exactly `a.arc` and `b.ARC.LZ` (in sorted order) while the
recursive walk additionally processes `sub/d.arc`. -/
theorem c7_filter_and_walk {α : Type} (process : List Char → Except Unit α) :
    (∀ name : List Char, does_path_look_like_level name = true ↔
      (strLower (pathSuffix name) = ".arc".toList
        ∨ (2 ≤ (pathSuffixes name).length
          ∧ strLower ((pathSuffixes name).getD ((pathSuffixes name).length - 2) [])
              = ".arc".toList
          ∧ strLower ((pathSuffixes name).getD ((pathSuffixes name).length - 1) [])
              = ".lz".toList)))
    ∧ (scan_folder process false [] demoEntries).map Prod.fst
        = ["a.arc".toList, "b.ARC.LZ".toList]
    ∧ (scan_folder process true [] demoEntries).map Prod.fst
        = ["a.arc".toList, "b.ARC.LZ".toList, "sub/d.arc".toList] := by
  have hsort : sortEntries demoEntries =
      [FSEntry.file "a.arc".toList, FSEntry.file "b.ARC.LZ".toList,
       FSEntry.file "c.txt".toList,
       FSEntry.dir "sub".toList [FSEntry.file "d.arc".toList]] := by rfl
  have hsub : sortEntries [FSEntry.file "d.arc".toList] =
      [FSEntry.file "d.arc".toList] := by rfl
  have hA : does_path_look_like_level "a.arc".toList = true := by decide
  have hB : does_path_look_like_level "b.ARC.LZ".toList = true := by decide
  have hC : does_path_look_like_level "c.txt".toList = false := by decide
  have hD : does_path_look_like_level "d.arc".toList = true := by decide
  refine ⟨?_, ?_, ?_⟩
  · intro name
    unfold does_path_look_like_level
    by_cases h1 : strLower (pathSuffix name) = ".arc".toList
    · rw [if_pos h1]
      exact ⟨fun _ => Or.inl h1, fun _ => rfl⟩
    · rw [if_neg h1]
      by_cases h2 : 2 ≤ (pathSuffixes name).length
          ∧ strLower ((pathSuffixes name).getD ((pathSuffixes name).length - 2) [])
              = ".arc".toList
          ∧ strLower ((pathSuffixes name).getD ((pathSuffixes name).length - 1) [])
              = ".lz".toList
      · rw [if_pos h2]
        exact ⟨fun _ => Or.inr h2, fun _ => rfl⟩
      · rw [if_neg h2]
        constructor
        · intro hcontr
          exact Bool.noConfusion hcontr
        · rintro (h | h)
          · exact absurd h h1
          · exact absurd h h2
  · rw [scan_folder_eq, hsort]
    simp only [List.filterMap_cons, List.filterMap_nil, hA, hB, hC, if_true, if_false,
      Bool.false_eq_true, List.map_append, List.map_cons, List.map_nil, List.append_nil,
      List.nil_append]
  · rw [scan_folder_eq, hsort]
    simp only [List.filterMap_cons, List.filterMap_nil, List.foldr_cons, List.foldr_nil,
      hA, hB, hC, if_true, if_false, Bool.false_eq_true, eq_self_iff_true]
    rw [scan_folder_eq, hsub]
    simp only [List.filterMap_cons, List.filterMap_nil, List.foldr_cons, List.foldr_nil,
      hD, if_true, if_false, Bool.false_eq_true, eq_self_iff_true, List.map_append,
      List.map_cons, List.map_nil, List.append_nil, List.nil_append]
    decide

/-- Witness for `c7_filter_and_walk` at a concrete processing function
and the scenario directory. -/
theorem c7_filter_and_walk_witness :
    (does_path_look_like_level "a.arc".toList = true ↔
      (strLower (pathSuffix "a.arc".toList) = ".arc".toList
        ∨ (2 ≤ (pathSuffixes "a.arc".toList).length
          ∧ strLower ((pathSuffixes "a.arc".toList).getD
              ((pathSuffixes "a.arc".toList).length - 2) []) = ".arc".toList
          ∧ strLower ((pathSuffixes "a.arc".toList).getD
              ((pathSuffixes "a.arc".toList).length - 1) []) = ".lz".toList)))
    ∧ (scan_folder okProc true [] demoEntries).map Prod.fst
        = ["a.arc".toList, "b.ARC.LZ".toList, "sub/d.arc".toList] :=
  ⟨(c7_filter_and_walk okProc).1 ("a.arc".toList),
   (c7_filter_and_walk okProc).2.2⟩

end TLE
